import Mathlib

/-!
Verification of the camera-framing and SVG post-processing core of
scripts/render_part.py (LDraw part → SVG line drawing via Blender Freestyle).

The embedding follows the source file function by function:

* `setup_camera` (lines 100–183): bounding-box extents in camera view space,
  orthographic scale and shift.  Python floats are modelled as exact
  rationals `ℚ`; the transcendental viewing-direction computation
  (lines 136–140) is modelled over `ℝ`.  The projection of world-space
  corners into camera-local coordinates (`cam_matrix_inv @ corner`,
  lines 157–168) is performed by the external host (Blender's matrix
  arithmetic); the embedding therefore starts from the projected 2D view
  coordinates, exactly as the spec describes them.
* `setup_freestyle` (lines 186–247): the visible and optional hidden
  line-set/line-style rules.
* `postprocess_svg` (lines 263–285): the two regex substitutions and the
  opacity stamping, modelled by a faithful leftmost non-overlapping
  substitution over character lists.
* `_reorder_svg_hidden_edges` (lines 288–334) and `add_svg_background`
  (lines 337–349): the document-tree stages, modelled over a list of
  top-level children.
-/

namespace RenderPart

/-! ### Camera framing (`setup_camera`, lines 157–183)

The Python code folds over `all_corners` maintaining `min_vx`, `max_vx`,
`min_vy`, `max_vy`, initialised to `±inf`.  For a non-empty corner list the
`±inf` initialisation is equivalent to starting the fold from the first
element, which is how `boundsOf` is written; the empty case is the early
`return` at line 121–123, modelled as `none`. -/

structure ViewBounds where
  min_vx : ℚ
  max_vx : ℚ
  min_vy : ℚ
  max_vy : ℚ
deriving DecidableEq

/-- One step of the bounds-gathering loop at lines 163–168. -/
def updateBounds (b : ViewBounds) (v : ℚ × ℚ) : ViewBounds :=
  ⟨min b.min_vx v.1, max b.max_vx v.1, min b.min_vy v.2, max b.max_vy v.2⟩

/-- The loop at lines 163–168 over the projected corner points; `none`
models the early return for an empty corner set (lines 121–123). -/
def boundsOf : List (ℚ × ℚ) → Option ViewBounds
  | [] => none
  | v :: vs => some (vs.foldl updateBounds ⟨v.1, v.1, v.2, v.2⟩)

/-- Line 170: `ext_x = max_vx - min_vx`. -/
def ext_x (b : ViewBounds) : ℚ := b.max_vx - b.min_vx

/-- Line 171: `ext_y = max_vy - min_vy`. -/
def ext_y (b : ViewBounds) : ℚ := b.max_vy - b.min_vy

/-- Line 175: `scale = max(ext_x / aspect, ext_y) / (1 - 2 * padding)`. -/
def ortho_scale (b : ViewBounds) (aspect padding : ℚ) : ℚ :=
  max (ext_x b / aspect) (ext_y b) / (1 - 2 * padding)

/-- Line 180: `center_vx = (min_vx + max_vx) / 2`. -/
def center_vx (b : ViewBounds) : ℚ := (b.min_vx + b.max_vx) / 2

/-- Line 181: `center_vy = (min_vy + max_vy) / 2`. -/
def center_vy (b : ViewBounds) : ℚ := (b.min_vy + b.max_vy) / 2

/-- Line 182: `shift_x = -center_vx / (scale * aspect)`.  Python raises
`ZeroDivisionError` when the divisor is zero, so the fallible division is
modelled with `Option`. -/
def shift_x (b : ViewBounds) (aspect padding : ℚ) : Option ℚ :=
  let s := ortho_scale b aspect padding
  if s * aspect = 0 then none else some (-(center_vx b) / (s * aspect))

/-- Line 183: `shift_y = -center_vy / scale`, fallible as in `shift_x`. -/
def shift_y (b : ViewBounds) (aspect padding : ℚ) : Option ℚ :=
  let s := ortho_scale b aspect padding
  if s = 0 then none else some (-(center_vy b) / s)

/-- Minimum of a list of rationals (spec-side helper for stating the claim
that the projected extents are the ranges of the coordinates). -/
def listMin : List ℚ → ℚ
  | [] => 0
  | x :: xs => xs.foldl min x

/-- Maximum of a list of rationals (spec-side helper). -/
def listMax : List ℚ → ℚ
  | [] => 0
  | x :: xs => xs.foldl max x

/-- Range (max minus min) of a list of rationals (spec-side helper). -/
def rangeOf (xs : List ℚ) : ℚ := listMax xs - listMin xs

/-! #### Lemmas relating the fused bounds fold to the per-coordinate ranges -/

theorem foldl_updateBounds_min_vx (vs : List (ℚ × ℚ)) :
    ∀ b : ViewBounds,
      (vs.foldl updateBounds b).min_vx = vs.foldl (fun m v => min m v.1) b.min_vx := by
  induction vs with
  | nil => intro b; rfl
  | cons v vs ih => intro b; simpa [updateBounds] using ih (updateBounds b v)

theorem foldl_updateBounds_max_vx (vs : List (ℚ × ℚ)) :
    ∀ b : ViewBounds,
      (vs.foldl updateBounds b).max_vx = vs.foldl (fun m v => max m v.1) b.max_vx := by
  induction vs with
  | nil => intro b; rfl
  | cons v vs ih => intro b; simpa [updateBounds] using ih (updateBounds b v)

theorem foldl_updateBounds_min_vy (vs : List (ℚ × ℚ)) :
    ∀ b : ViewBounds,
      (vs.foldl updateBounds b).min_vy = vs.foldl (fun m v => min m v.2) b.min_vy := by
  induction vs with
  | nil => intro b; rfl
  | cons v vs ih => intro b; simpa [updateBounds] using ih (updateBounds b v)

theorem foldl_updateBounds_max_vy (vs : List (ℚ × ℚ)) :
    ∀ b : ViewBounds,
      (vs.foldl updateBounds b).max_vy = vs.foldl (fun m v => max m v.2) b.max_vy := by
  induction vs with
  | nil => intro b; rfl
  | cons v vs ih => intro b; simpa [updateBounds] using ih (updateBounds b v)

theorem boundsOf_min_vx {pts : List (ℚ × ℚ)} {b : ViewBounds}
    (h : boundsOf pts = some b) : b.min_vx = listMin (pts.map Prod.fst) := by
  cases pts with
  | nil => simp [boundsOf] at h
  | cons v vs =>
      simp only [boundsOf, Option.some.injEq] at h
      subst h
      rw [foldl_updateBounds_min_vx]
      simp [listMin, List.foldl_map]

theorem boundsOf_max_vx {pts : List (ℚ × ℚ)} {b : ViewBounds}
    (h : boundsOf pts = some b) : b.max_vx = listMax (pts.map Prod.fst) := by
  cases pts with
  | nil => simp [boundsOf] at h
  | cons v vs =>
      simp only [boundsOf, Option.some.injEq] at h
      subst h
      rw [foldl_updateBounds_max_vx]
      simp [listMax, List.foldl_map]

theorem boundsOf_min_vy {pts : List (ℚ × ℚ)} {b : ViewBounds}
    (h : boundsOf pts = some b) : b.min_vy = listMin (pts.map Prod.snd) := by
  cases pts with
  | nil => simp [boundsOf] at h
  | cons v vs =>
      simp only [boundsOf, Option.some.injEq] at h
      subst h
      rw [foldl_updateBounds_min_vy]
      simp [listMin, List.foldl_map]

theorem boundsOf_max_vy {pts : List (ℚ × ℚ)} {b : ViewBounds}
    (h : boundsOf pts = some b) : b.max_vy = listMax (pts.map Prod.snd) := by
  cases pts with
  | nil => simp [boundsOf] at h
  | cons v vs =>
      simp only [boundsOf, Option.some.injEq] at h
      subst h
      rw [foldl_updateBounds_max_vy]
      simp [listMax, List.foldl_map]

/-- C4: for every non-empty corner set, padding `0 ≤ p < 1/2` and aspect
ratio `a > 0`, the orthographic scale computed by `setup_camera` equals
`max(extentX / a, extentY) / (1 - 2p)`, where `extentX` and `extentY` are
the ranges of the projected points' x and y coordinates. -/
theorem C4_ortho_scale_formula (pts : List (ℚ × ℚ)) (b : ViewBounds) (a p : ℚ)
    (hb : boundsOf pts = some b) (ha : 0 < a) (hp0 : 0 ≤ p) (hp : p < 1 / 2) :
    ortho_scale b a p =
      max (rangeOf (pts.map Prod.fst) / a) (rangeOf (pts.map Prod.snd)) / (1 - 2 * p) := by
  unfold ortho_scale ext_x ext_y rangeOf
  rw [boundsOf_min_vx hb, boundsOf_max_vx hb, boundsOf_min_vy hb, boundsOf_max_vy hb]

/-- C4 witness: concrete corner set `[(0,0), (1,2)]`, aspect 1, padding 3/100. -/
theorem C4_ortho_scale_formula_witness :
    ortho_scale ⟨0, 1, 0, 2⟩ 1 (3 / 100) =
      max (rangeOf ([((0 : ℚ), (0 : ℚ)), (1, 2)].map Prod.fst) / 1)
        (rangeOf ([((0 : ℚ), (0 : ℚ)), (1, 2)].map Prod.snd)) / (1 - 2 * (3 / 100)) :=
  C4_ortho_scale_formula [(0, 0), (1, 2)] ⟨0, 1, 0, 2⟩ 1 (3 / 100)
    (by norm_num [boundsOf, updateBounds]) (by norm_num) (by norm_num) (by norm_num)

/-- C1: the code has no epsilon clamp.  For a degenerate (single, possibly
repeated, projected corner point) set the orthographic scale evaluates to
exactly 0, and both shift divisions divide by zero (a Python
`ZeroDivisionError`, modelled as `none`), contradicting the claim that the
scale is clamped to a small positive epsilon. -/
theorem C1_degenerate_scale_not_clamped :
    boundsOf [((3 : ℚ), (7 : ℚ))] = some ⟨3, 3, 7, 7⟩ ∧
    ortho_scale ⟨3, 3, 7, 7⟩ 1 (3 / 100) = 0 ∧
    shift_x ⟨3, 3, 7, 7⟩ 1 (3 / 100) = none ∧
    shift_y ⟨3, 3, 7, 7⟩ 1 (3 / 100) = none := by
  refine ⟨rfl, ?_, ?_, ?_⟩ <;>
    norm_num [ortho_scale, ext_x, ext_y, shift_x, shift_y]

/-- C5 counterexample: for the degenerate single-point corner set the scale
is 0 for every padding, so it is not strictly increasing in the padding:
increasing padding from 0 to 1/4 leaves the scale unchanged. -/
theorem C5_counterexample :
    boundsOf [((0 : ℚ), (0 : ℚ))] = some ⟨0, 0, 0, 0⟩ ∧
    ¬ ortho_scale ⟨0, 0, 0, 0⟩ 1 0 < ortho_scale ⟨0, 0, 0, 0⟩ 1 (1 / 4) := by
  refine ⟨rfl, ?_⟩
  norm_num [ortho_scale, ext_x, ext_y]

/-- C5 (amended): for fixed bounds whose framed size `max(extentX/a, extentY)`
is strictly positive (non-degenerate projected geometry), the orthographic
scale is strictly increasing in the padding on `[0, 1/2)`; and at padding 0
the scale equals `max(extentX/a, extentY)` exactly. -/
theorem C5_scale_monotone_amended (b : ViewBounds) (a p q : ℚ)
    (hM : 0 < max (ext_x b / a) (ext_y b))
    (hp0 : 0 ≤ p) (hpq : p < q) (hq : q < 1 / 2) :
    ortho_scale b a p < ortho_scale b a q ∧
      ortho_scale b a 0 = max (ext_x b / a) (ext_y b) := by
  constructor
  · unfold ortho_scale
    have hdq : 0 < 1 - 2 * q := by linarith
    have hdp : 0 < 1 - 2 * p := by linarith
    rw [div_lt_div_iff₀ hdp hdq]
    have hlt : 1 - 2 * q < 1 - 2 * p := by linarith
    exact mul_lt_mul_of_pos_left hlt hM
  · unfold ortho_scale
    norm_num

/-- C5 amended witness: the unit square bounds, aspect 1, paddings 0 < 1/4. -/
theorem C5_scale_monotone_amended_witness :
    ortho_scale ⟨0, 1, 0, 1⟩ 1 0 < ortho_scale ⟨0, 1, 0, 1⟩ 1 (1 / 4) ∧
      ortho_scale ⟨0, 1, 0, 1⟩ 1 0 = max (ext_x ⟨0, 1, 0, 1⟩ / 1) (ext_y ⟨0, 1, 0, 1⟩) :=
  C5_scale_monotone_amended ⟨0, 1, 0, 1⟩ 1 0 (1 / 4)
    (by norm_num [ext_x, ext_y]) (by norm_num) (by norm_num) (by norm_num)

/-! ### Camera viewing direction (`setup_camera`, lines 111–112 and 136–140)

The code computes `lat = radians(camera_lat)`, `lon = radians(camera_lon)`
and then `direction = Vector((cos(lat)*sin(lon), -cos(lat)*cos(lon),
sin(lat))).normalized()`.  `mathutils.Vector.normalized()` divides by the
Euclidean length and returns the zero vector when the length is zero. -/

/-- Python `math.radians`: degrees to radians. -/
noncomputable def radiansOf (d : ℝ) : ℝ := d * Real.pi / 180

/-- Lines 137–139: the un-normalised direction vector, from angles given in
degrees. -/
noncomputable def dirVec (latDeg lonDeg : ℝ) : ℝ × ℝ × ℝ :=
  (Real.cos (radiansOf latDeg) * Real.sin (radiansOf lonDeg),
   -Real.cos (radiansOf latDeg) * Real.cos (radiansOf lonDeg),
   Real.sin (radiansOf latDeg))

/-- Euclidean length of a 3-vector. -/
noncomputable def norm3 (v : ℝ × ℝ × ℝ) : ℝ :=
  Real.sqrt (v.1 ^ 2 + v.2.1 ^ 2 + v.2.2 ^ 2)

/-- mathutils `Vector.normalized()`: divide by the length, zero vector when
the length is zero. -/
noncomputable def normalize3 (v : ℝ × ℝ × ℝ) : ℝ × ℝ × ℝ :=
  if norm3 v = 0 then (0, 0, 0)
  else (v.1 / norm3 v, v.2.1 / norm3 v, v.2.2 / norm3 v)

/-- Line 140: the camera viewing direction. -/
noncomputable def cameraDirection (latDeg lonDeg : ℝ) : ℝ × ℝ × ℝ :=
  normalize3 (dirVec latDeg lonDeg)

/-- C6: the camera viewing direction is the normalization of
`(cos(lat)·sin(lon), −cos(lat)·cos(lon), sin(lat))`; at `lat = 0, lon = 0`
it equals `(0, −1, 0)`, and at `lat = 90°` it equals `(0, 0, 1)` for every
longitude. -/
theorem C6_camera_direction :
    (∀ latDeg lonDeg : ℝ, cameraDirection latDeg lonDeg = normalize3 (dirVec latDeg lonDeg)) ∧
    cameraDirection 0 0 = (0, -1, 0) ∧
    (∀ lonDeg : ℝ, cameraDirection 90 lonDeg = (0, 0, 1)) := by
  refine ⟨fun _ _ => rfl, ?_, fun lonDeg => ?_⟩
  · have h0 : radiansOf 0 = 0 := by simp [radiansOf]
    have hv : dirVec 0 0 = (0, -1, 0) := by
      simp [dirVec, h0]
    have hn : norm3 ((0 : ℝ), (-1 : ℝ), (0 : ℝ)) = 1 := by
      simp [norm3]
    simp [cameraDirection, hv, normalize3, hn]
  · have h90 : radiansOf 90 = Real.pi / 2 := by
      unfold radiansOf; ring
    have hv : dirVec 90 lonDeg = (0, 0, 1) := by
      simp [dirVec, h90, Real.cos_pi_div_two, Real.sin_pi_div_two]
    have hn : norm3 ((0 : ℝ), (0 : ℝ), (1 : ℝ)) = 1 := by
      simp [norm3]
    simp [cameraDirection, hv, normalize3, hn]

/-! ### Freestyle line-set configuration (`setup_freestyle`, lines 186–247)

Strings are modelled as `List Char`.  A Blender lineset is modelled with
the fields the function assigns; `visibility` is the `'VISIBLE'` /
`'HIDDEN'` token.  The crease angle (line 193) is handed to the external
renderer's crease detection and carries no logic here. -/

structure FsLineStyle where
  thickness : ℚ
  color : ℚ × ℚ × ℚ
  alpha : ℚ
deriving DecidableEq

structure FsLineSet where
  name : List Char
  selectSilhouette : Bool
  selectCrease : Bool
  selectBorder : Bool
  selectContour : Bool
  selectExternalContour : Bool
  selectEdgeMark : Bool
  selectMaterialBoundary : Bool
  selectByVisibility : Bool
  visibility : List Char
  linestyle : FsLineStyle
deriving DecidableEq

/-- Line 200: `enabled = set(edge_types.split(",")) if edge_types != "none"
else set()`.  Membership in a Python set of strings is membership in the
split list. -/
def enabledEdgeTypes (edge_types : List Char) : List (List Char) :=
  if edge_types = "none".toList then [] else edge_types.splitOn ','

/-- Lines 196–247: the visible lineset (always created) and the hidden
lineset (only when `fill_opacity < 1.0`), with the alpha rule of line 243:
`hls.alpha = 1.0 if fill_opacity == 0.0 else fill_opacity`. -/
def setup_freestyle (thickness : ℚ) (edge_types : List Char) (fill_opacity : ℚ) :
    FsLineSet × Option FsLineSet :=
  let enabled := enabledEdgeTypes edge_types
  let lineset : FsLineSet :=
    ⟨"Edges".toList,
     enabled.contains "silhouette".toList,
     enabled.contains "crease".toList,
     enabled.contains "border".toList,
     enabled.contains "contour".toList,
     enabled.contains "external_contour".toList,
     enabled.contains "edge_mark".toList,
     enabled.contains "material_boundary".toList,
     true, "VISIBLE".toList,
     ⟨thickness, (0, 0, 0), 1⟩⟩
  let hidden : Option FsLineSet :=
    if fill_opacity < 1 then
      some
        ⟨"HiddenEdges".toList,
         enabled.contains "silhouette".toList,
         enabled.contains "crease".toList,
         enabled.contains "border".toList,
         enabled.contains "contour".toList,
         enabled.contains "external_contour".toList,
         enabled.contains "edge_mark".toList,
         enabled.contains "material_boundary".toList,
         true, "HIDDEN".toList,
         ⟨thickness, (0, 0, 0), if fill_opacity = 0 then 1 else fill_opacity⟩⟩
    else none
  (lineset, hidden)

/-- C3: with `fill_opacity = 1.0` no hidden rule is produced; with
`0 < fill_opacity < 1.0` the hidden rule's alpha equals `fill_opacity`;
with `fill_opacity = 0` the hidden rule's alpha is forced to `1.0`. -/
theorem C3_hidden_alpha_rule (thickness fill_opacity : ℚ) (edge_types : List Char) :
    (fill_opacity = 1 → (setup_freestyle thickness edge_types fill_opacity).2 = none) ∧
    (0 < fill_opacity → fill_opacity < 1 →
      ∃ hl, (setup_freestyle thickness edge_types fill_opacity).2 = some hl ∧
        hl.linestyle.alpha = fill_opacity) ∧
    (fill_opacity = 0 →
      ∃ hl, (setup_freestyle thickness edge_types fill_opacity).2 = some hl ∧
        hl.linestyle.alpha = 1) := by
  refine ⟨?_, ?_, ?_⟩
  · intro h1
    subst h1
    simp [setup_freestyle]
  · intro hpos hlt
    simp only [setup_freestyle, if_pos hlt, if_neg (ne_of_gt hpos)]
    exact ⟨_, rfl, rfl⟩
  · intro h0
    subst h0
    have h01 : (0 : ℚ) < 1 := by norm_num
    simp only [setup_freestyle, if_pos h01, if_pos rfl]
    exact ⟨_, rfl, rfl⟩

/-- C3 witness: the three branches at `fill_opacity` 1, 1/2 and 0, with the
default edge-type list and thickness 2. -/
theorem C3_hidden_alpha_rule_witness :
    (setup_freestyle 2 ("silhouette,crease,border".toList) 1).2 = none ∧
    (∃ hl, (setup_freestyle 2 ("silhouette,crease,border".toList) (1 / 2)).2 = some hl ∧
      hl.linestyle.alpha = 1 / 2) ∧
    (∃ hl, (setup_freestyle 2 ("silhouette,crease,border".toList) 0).2 = some hl ∧
      hl.linestyle.alpha = 1) :=
  ⟨(C3_hidden_alpha_rule 2 1 ("silhouette,crease,border".toList)).1 rfl,
   (C3_hidden_alpha_rule 2 (1 / 2) ("silhouette,crease,border".toList)).2.1
     (by norm_num) (by norm_num),
   (C3_hidden_alpha_rule 2 0 ("silhouette,crease,border".toList)).2.2 rfl⟩

/-! ### Text substitution (`postprocess_svg`, lines 263–279)

`re.sub` performs leftmost, non-overlapping replacement.  `subst` models
it: scan left to right; where the pattern matcher reports a match of
length `n ≥ 1`, emit the replacement and continue after the match,
otherwise emit the character and move one position right.  The matchers
below implement the three concrete patterns of `postprocess_svg`; for each
of them the greedy whitespace skip is equivalent to the regex `\s*`
because the character following `\s*` in the pattern is a digit, never
whitespace.  The replacement text is inserted literally, which matches
`re.sub` for replacement strings free of backslash escapes (the
configured fill colors). -/

/-- Fueled scanner for leftmost non-overlapping substitution; called with
fuel = length of the text, which each step decreases by at least one. -/
def substGo (tryM : List Char → Option Nat) (repl : List Char) : Nat → List Char → List Char
  | 0, s => s
  | _ + 1, [] => []
  | fuel + 1, c :: cs =>
    match tryM (c :: cs) with
    | some n => repl ++ substGo tryM repl fuel (cs.drop (n - 1))
    | none => c :: substGo tryM repl fuel cs

/-- Python `re.sub(pattern, repl, s)` for the patterns of this file. -/
def subst (tryM : List Char → Option Nat) (repl : List Char) (s : List Char) : List Char :=
  substGo tryM repl s.length s

/-- Python regex `\s` on the ASCII range. -/
def isSpaceChar (c : Char) : Bool :=
  c = ' ' || c = '\t' || c = '\n' || c = '\r' || c = '\x0b' || c = '\x0c'

/-- Consume a literal piece of the pattern, returning the rest of the text. -/
def litPrefixRem (lit s : List Char) : Option (List Char) :=
  if lit.isPrefixOf s then some (s.drop lit.length) else none

/-- Greedy `\s*`. -/
def dropSpaces (s : List Char) : List Char := s.dropWhile isSpaceChar

/-- Line 269 pattern: `fill="rgb\(255,\s*255,\s*255\)"`; reports the length
of the match at the head of `s`, if any. -/
def tryWhiteFill (s : List Char) : Option Nat :=
  match litPrefixRem ("fill=\"rgb(255,".toList) s with
  | none => none
  | some r1 =>
    match litPrefixRem ("255,".toList) (dropSpaces r1) with
    | none => none
    | some r2 =>
      match litPrefixRem ("255)\"".toList) (dropSpaces r2) with
      | none => none
      | some r3 => some (s.length - r3.length)

/-- Line 272 pattern: `stroke="rgb\(0,\s*0,\s*0\)"`. -/
def tryBlackStroke (s : List Char) : Option Nat :=
  match litPrefixRem ("stroke=\"rgb(0,".toList) s with
  | none => none
  | some r1 =>
    match litPrefixRem ("0,".toList) (dropSpaces r1) with
    | none => none
    | some r2 =>
      match litPrefixRem ("0)\"".toList) (dropSpaces r2) with
      | none => none
      | some r3 => some (s.length - r3.length)

/-- Line 276 pattern: the literal `fill-opacity="1\.0"`. -/
def tryFullOpacity (s : List Char) : Option Nat :=
  if ("fill-opacity=\"1.0\"".toList).isPrefixOf s then
    some ("fill-opacity=\"1.0\"".toList).length
  else none

/-- Line 269 replacement: `fill="{fill_color}"`. -/
def fillRepl (fill_color : List Char) : List Char :=
  "fill=\"".toList ++ fill_color ++ "\"".toList

/-- Line 272 replacement: `stroke="currentColor"`. -/
def strokeRepl : List Char := "stroke=\"currentColor\"".toList

/-- Round to the nearest integer, ties to even: the rounding of Python
`format` (applied here to the exact rational model of the float). -/
def rhe (x : ℚ) : ℤ :=
  let fl := x.floor
  let fr := x - (fl : ℚ)
  if fr < 1 / 2 then fl
  else if 1 / 2 < fr then fl + 1
  else if fl % 2 = 0 then fl else fl + 1

/-- Python `f"{x:.4f}"`: sign, integer digits, point, four fraction digits. -/
def format4 (q : ℚ) : List Char :=
  let n := (rhe (|q| * 10000)).toNat
  let ip := n / 10000
  let fp := n % 10000
  let fd := Nat.toDigits 10 fp
  (if q < 0 then ['-'] else []) ++ Nat.toDigits 10 ip ++ ['.'] ++
    List.replicate (4 - fd.length) '0' ++ fd

/-- Line 276 replacement: `fill-opacity="{fill_opacity:.4f}"`. -/
def opacityRepl (fill_opacity : ℚ) : List Char :=
  "fill-opacity=\"".toList ++ format4 fill_opacity ++ "\"".toList

/-- Lines 269 and 272: the recolor stage (white fills to the configured
color, then black strokes to `currentColor`). -/
def recolor (fill_color : List Char) (content : List Char) : List Char :=
  subst tryBlackStroke strokeRepl (subst tryWhiteFill (fillRepl fill_color) content)

/-- Lines 275–276: the opacity-stamping stage, gated on `fill_opacity < 1.0`. -/
def stampOpacity (fill_opacity : ℚ) (content : List Char) : List Char :=
  if fill_opacity < 1 then subst tryFullOpacity (opacityRepl fill_opacity) content
  else content

/-! #### A document as a list of chunks

To state "every occurrence is rewritten and every other byte is identical"
the input text is presented as a concatenation of chunks, each either a
pattern occurrence (`tok`) or a stretch of text in which no match starts
(`plain`); `chunksOK` checks this decidably against a given matcher,
including that no match starts inside a plain chunk and runs into the
following text. -/

inductive Chunk where
  | tok : List Char → Chunk
  | plain : List Char → Chunk
deriving DecidableEq

def render : List Chunk → List Char
  | [] => []
  | Chunk.tok t :: rest => t ++ render rest
  | Chunk.plain s :: rest => s ++ render rest

def chunksOK (tryM : List Char → Option Nat) : List Chunk → Bool
  | [] => true
  | Chunk.tok t :: rest =>
      !t.isEmpty && decide (tryM (t ++ render rest) = some t.length) &&
        chunksOK tryM rest
  | Chunk.plain s :: rest =>
      ((List.range s.length).all fun i =>
          decide (tryM ((s ++ render rest).drop i) = none)) &&
        chunksOK tryM rest

def mapRepl (repl : List Char) : List Chunk → List Chunk
  | [] => []
  | Chunk.tok _ :: rest => Chunk.tok repl :: mapRepl repl rest
  | Chunk.plain s :: rest => Chunk.plain s :: mapRepl repl rest

/-! #### Substitution lemmas -/

theorem substGo_fuel (tryM : List Char → Option Nat) (repl : List Char) :
    ∀ f₁ f₂ s, s.length ≤ f₁ → s.length ≤ f₂ →
      substGo tryM repl f₁ s = substGo tryM repl f₂ s := by
  intro f₁
  induction f₁ with
  | zero =>
      intro f₂ s h₁ h₂
      have hs : s = [] := List.eq_nil_of_length_eq_zero (Nat.le_zero.mp h₁)
      subst hs
      cases f₂ <;> rfl
  | succ f ih =>
      intro f₂ s h₁ h₂
      cases s with
      | nil => cases f₂ <;> rfl
      | cons c cs =>
          cases f₂ with
          | zero => simp at h₂
          | succ f₂ =>
              simp only [substGo]
              cases htry : tryM (c :: cs) with
              | some n =>
                  have hd : (cs.drop (n - 1)).length ≤ cs.length := by
                    simp [List.length_drop]
                  refine congrArg (repl ++ ·) (ih f₂ (cs.drop (n - 1)) ?_ ?_)
                  · exact le_trans hd (Nat.le_of_succ_le_succ h₁)
                  · exact le_trans hd (Nat.le_of_succ_le_succ h₂)
              | none =>
                  refine congrArg (c :: ·) (ih f₂ cs ?_ ?_)
                  · exact Nat.le_of_succ_le_succ h₁
                  · exact Nat.le_of_succ_le_succ h₂

theorem subst_cons_none {tryM : List Char → Option Nat} {repl : List Char}
    {c : Char} {cs : List Char} (h : tryM (c :: cs) = none) :
    subst tryM repl (c :: cs) = c :: subst tryM repl cs := by
  unfold subst
  simp only [List.length_cons, substGo, h]

theorem subst_append_match (tryM : List Char → Option Nat) (repl : List Char)
    (tok rest : List Char) (htok : tok ≠ [])
    (h : tryM (tok ++ rest) = some tok.length) :
    subst tryM repl (tok ++ rest) = repl ++ subst tryM repl rest := by
  obtain ⟨c, ts, rfl⟩ := List.exists_cons_of_ne_nil htok
  have h' : tryM (c :: (ts ++ rest)) = some (ts.length + 1) := by simpa using h
  unfold subst
  rw [show (c :: ts) ++ rest = c :: (ts ++ rest) from rfl]
  simp only [List.length_cons, substGo, h', List.append_eq, Nat.add_sub_cancel]
  rw [List.drop_left]
  refine congrArg (repl ++ ·) (substGo_fuel tryM repl _ _ rest ?_ ?_)
  · simp
  · exact le_refl _

theorem subst_append_clean (tryM : List Char → Option Nat) (repl : List Char) :
    ∀ pre rest : List Char,
      (∀ i < pre.length, tryM ((pre ++ rest).drop i) = none) →
      subst tryM repl (pre ++ rest) = pre ++ subst tryM repl rest := by
  intro pre
  induction pre with
  | nil => intro rest _; rfl
  | cons c pre ih =>
      intro rest h
      have h0 : tryM (c :: (pre ++ rest)) = none := by
        have := h 0 (by simp)
        simpa using this
      rw [show (c :: pre) ++ rest = c :: (pre ++ rest) from rfl,
        subst_cons_none h0]
      refine congrArg (c :: ·) (ih rest fun i hi => ?_)
      have := h (i + 1) (by simpa using Nat.succ_lt_succ hi)
      simpa using this

theorem subst_chunks (tryM : List Char → Option Nat) (repl : List Char) :
    ∀ cs : List Chunk, chunksOK tryM cs = true →
      subst tryM repl (render cs) = render (mapRepl repl cs) := by
  intro cs
  induction cs with
  | nil => intro _; rfl
  | cons c rest ih =>
      intro hok
      cases c with
      | tok t =>
          simp only [chunksOK, Bool.and_eq_true, Bool.not_eq_true',
            decide_eq_true_eq] at hok
          obtain ⟨⟨hne, hmatch⟩, hrest⟩ := hok
          have htok : t ≠ [] := by
            intro ht
            subst ht
            simp at hne
          rw [show render (Chunk.tok t :: rest) = t ++ render rest from rfl,
            subst_append_match tryM repl t (render rest) htok hmatch, ih hrest]
          rfl
      | plain s =>
          simp only [chunksOK, Bool.and_eq_true, List.all_eq_true,
            List.mem_range, decide_eq_true_eq] at hok
          obtain ⟨hclean, hrest⟩ := hok
          rw [show render (Chunk.plain s :: rest) = s ++ render rest from rfl,
            subst_append_clean tryM repl s (render rest) hclean, ih hrest]
          rfl

/-- C7: presenting the input document as chunks (white-fill occurrences and
match-free stretches for the first pass; black-stroke occurrences and
match-free stretches for the second pass), the recolor stage rewrites every
white-fill occurrence to the configured fill token, every black-stroke
occurrence to `stroke="currentColor"`, and reproduces every plain chunk
byte for byte. -/
theorem C7_recolor_rewrites (fill_color : List Char) (cs₁ cs₂ : List Chunk)
    (h₁ : chunksOK tryWhiteFill cs₁ = true)
    (heq : render (mapRepl (fillRepl fill_color) cs₁) = render cs₂)
    (h₂ : chunksOK tryBlackStroke cs₂ = true) :
    recolor fill_color (render cs₁) = render (mapRepl strokeRepl cs₂) := by
  unfold recolor
  rw [subst_chunks tryWhiteFill (fillRepl fill_color) cs₁ h₁, heq,
    subst_chunks tryBlackStroke strokeRepl cs₂ h₂]

/-- C7 witness: a concrete document with one white fill and one black
stroke, recolored with fill color `red`. -/
theorem C7_recolor_rewrites_witness :
    recolor ("red".toList)
        (render [Chunk.plain ("<path ".toList),
          Chunk.tok ("fill=\"rgb(255,255,255)\"".toList),
          Chunk.plain (" stroke=\"rgb(0,0,0)\" d=\"M0 0\"/>".toList)]) =
      render (mapRepl strokeRepl
        [Chunk.plain ("<path fill=\"red\" ".toList),
         Chunk.tok ("stroke=\"rgb(0,0,0)\"".toList),
         Chunk.plain (" d=\"M0 0\"/>".toList)]) :=
  C7_recolor_rewrites ("red".toList)
    [Chunk.plain ("<path ".toList),
     Chunk.tok ("fill=\"rgb(255,255,255)\"".toList),
     Chunk.plain (" stroke=\"rgb(0,0,0)\" d=\"M0 0\"/>".toList)]
    [Chunk.plain ("<path fill=\"red\" ".toList),
     Chunk.tok ("stroke=\"rgb(0,0,0)\"".toList),
     Chunk.plain (" d=\"M0 0\"/>".toList)]
    (by decide) (by decide) (by decide)

/-- C8: the opacity-stamping stage leaves the document untouched when
`fill_opacity ≥ 1.0`; when `fill_opacity < 1.0` it rewrites every
occurrence of the renderer's default literal `fill-opacity="1.0"` to the
requested opacity formatted to four decimal places and reproduces every
other byte. -/
theorem C8_opacity_stamping (fill_opacity : ℚ) (content : List Char) (cs : List Chunk) :
    (1 ≤ fill_opacity → stampOpacity fill_opacity content = content) ∧
    (fill_opacity < 1 → chunksOK tryFullOpacity cs = true →
      stampOpacity fill_opacity (render cs) =
        render (mapRepl (opacityRepl fill_opacity) cs)) := by
  constructor
  · intro hge
    unfold stampOpacity
    rw [if_neg (not_lt.mpr hge)]
  · intro hlt hok
    unfold stampOpacity
    rw [if_pos hlt, subst_chunks tryFullOpacity (opacityRepl fill_opacity) cs hok]

/-- C8 witness: at `fill_opacity = 2` the stage is skipped; at
`fill_opacity = 1/2` the default-opacity literal in a concrete document is
restamped. -/
theorem C8_opacity_stamping_witness :
    stampOpacity 2 ("<g fill-opacity=\"1.0\"/>".toList) =
        "<g fill-opacity=\"1.0\"/>".toList ∧
    stampOpacity (1 / 2)
        (render [Chunk.plain ("<g ".toList),
          Chunk.tok ("fill-opacity=\"1.0\"".toList),
          Chunk.plain ("/>".toList)]) =
      render (mapRepl (opacityRepl (1 / 2))
        [Chunk.plain ("<g ".toList),
         Chunk.tok ("fill-opacity=\"1.0\"".toList),
         Chunk.plain ("/>".toList)]) :=
  ⟨(C8_opacity_stamping 2 ("<g fill-opacity=\"1.0\"/>".toList) []).1 (by norm_num),
   (C8_opacity_stamping (1 / 2) []
       [Chunk.plain ("<g ".toList),
        Chunk.tok ("fill-opacity=\"1.0\"".toList),
        Chunk.plain ("/>".toList)]).2 (by norm_num) (by decide)⟩

/-! ### Document-tree stages (`_reorder_svg_hidden_edges`, lines 288–334,
and `add_svg_background`, lines 337–349)

The SVG root is modelled as the ordered list of its top-level children.
`child.get("id", "")` is an optional attribute with default `""`.
Python's `list.index` on the scanned elements returns exactly the scan
indices, because each parsed element is a distinct object; the embedding
therefore works with the indices the scan loop determines. -/

structure XChild where
  idAttr : Option (List Char)
  tag : List Char
  attrs : List (List Char × List Char)
deriving DecidableEq

def noChild : XChild := ⟨none, [], []⟩

/-- Line 309: `child.get("id", "")`. -/
def getIdAttr (c : XChild) : List Char := c.idAttr.getD []

/-- Python `pat in s` on strings: `pat` occurs contiguously in `s`. -/
def containsSub (pat : List Char) : List Char → Bool
  | [] => pat.isEmpty
  | c :: cs => pat.isPrefixOf (c :: cs) || containsSub pat cs

/-- Line 310: `"HiddenEdges" in child_id`. -/
def isHiddenChild (c : XChild) : Bool := containsSub ("HiddenEdges".toList) (getIdAttr c)

/-- Line 312: `"Edges" in child_id` (tested only when the child is not a
hidden-edge child, by the `elif`). -/
def edgesInfix (c : XChild) : Bool := containsSub ("Edges".toList) (getIdAttr c)

/-- The visible-edge test the `if`/`elif` of lines 310–313 implements:
contains "Edges" but not "HiddenEdges". -/
def isEdgesChild (c : XChild) : Bool := !isHiddenChild c && edgesInfix c

/-- Lines 306–313: the scan loop, keeping the index of the last child
matching each test (later iterations overwrite earlier ones). -/
def scanGo : Nat → Option Nat × Option Nat → List XChild → Option Nat × Option Nat
  | _, acc, [] => acc
  | i, acc, c :: cs =>
    if isHiddenChild c then scanGo (i + 1) (some i, acc.2) cs
    else if edgesInfix c then scanGo (i + 1) (acc.1, some i) cs
    else scanGo (i + 1) acc cs

def scanEdgeGroups (cs : List XChild) : Option Nat × Option Nat :=
  scanGo 0 (none, none) cs

/-- Python `list.insert(n, x)` (appends when `n` is past the end). -/
def insertAt : Nat → XChild → List XChild → List XChild
  | 0, x, l => x :: l
  | _ + 1, x, [] => [x]
  | n + 1, x, c :: l => c :: insertAt n x l

/-- The three exits of `_reorder_svg_hidden_edges`: lines 315–317 (a group
is missing: diagnostic, document unchanged), lines 323–324 (already
ordered: diagnostic, document unchanged), and lines 327–334 (the hidden
group is removed and reinserted before the visible group). -/
inductive RStat where
  | missing
  | alreadyOrdered
  | moved
deriving DecidableEq

/-- Lines 301–334.  When both groups are found and `hidden_idx > edges_idx`,
the code removes the hidden group and reinserts it at the visible group's
recomputed index; since `edges_idx < hidden_idx`, removal at `hidden_idx`
leaves the visible group's index unchanged, so the recomputed index is
`edges_idx` again. -/
def reorderChildren (cs : List XChild) : List XChild × RStat :=
  match scanEdgeGroups cs with
  | (some h, some e) =>
    if h ≤ e then (cs, RStat.alreadyOrdered)
    else (insertAt e (cs.getD h noChild) (cs.eraseIdx h), RStat.moved)
  | _ => (cs, RStat.missing)

/-- Lines 284–285: the reordering stage runs only when `fill_opacity < 1.0`. -/
def zOrderStage (fill_opacity : ℚ) (cs : List XChild) : List XChild :=
  if fill_opacity < 1 then (reorderChildren cs).1 else cs

/-- Lines 343–346: the white full-canvas background rectangle. -/
def bgRect : XChild :=
  ⟨none, "rect".toList,
   [("width".toList, "100%".toList), ("height".toList, "100%".toList),
    ("fill".toList, "white".toList)]⟩

/-- Lines 341–347: `root.insert(0, bg)`. -/
def addBackground (cs : List XChild) : List XChild := bgRect :: cs

/-- The element `x` occurs immediately before the element `y`. -/
def immediatelyPrecedes (x y : XChild) (cs : List XChild) : Prop :=
  ∃ i, cs.get? i = some x ∧ cs.get? (i + 1) = some y

/-- Helper mirroring one component of the scan loop: index of the last
element satisfying `p`, starting from index `i` with accumulator `acc`. -/
def lastMatchGo (p : XChild → Bool) : Nat → Option Nat → List XChild → Option Nat
  | _, acc, [] => acc
  | i, acc, c :: cs => lastMatchGo p (i + 1) (if p c then some i else acc) cs

/-! #### Scan-loop lemmas -/

theorem lastMatchGo_acc (p : XChild → Bool) :
    ∀ (cs : List XChild) (i : Nat) (acc : Option Nat),
      (∀ c ∈ cs, p c = false) → lastMatchGo p i acc cs = acc := by
  intro cs
  induction cs with
  | nil => intro i acc _; rfl
  | cons c cs ih =>
      intro i acc h
      have hc : p c = false := h c (List.mem_cons_self c cs)
      simp only [lastMatchGo, hc, Bool.false_eq_true, if_false]
      exact ih (i + 1) acc fun x hx => h x (List.mem_cons_of_mem c hx)

theorem lastMatchGo_some (p : XChild → Bool) :
    ∀ (cs : List XChild) (i : Nat) (acc : Option Nat) (j : Nat),
      lastMatchGo p i acc cs = some j →
      (acc = some j ∧ ∀ k, k < cs.length → p (cs.getD k noChild) = false) ∨
      (i ≤ j ∧ j - i < cs.length ∧ p (cs.getD (j - i) noChild) = true ∧
        ∀ k, j - i < k → k < cs.length → p (cs.getD k noChild) = false) := by
  intro cs
  induction cs with
  | nil =>
      intro i acc j h
      exact Or.inl ⟨h, fun k hk => absurd hk (by simp)⟩
  | cons c cs ih =>
      intro i acc j h
      rcases ih (i + 1) (if p c then some i else acc) j h with
        ⟨hacc, hnone⟩ | ⟨hle, hlt, hp, hafter⟩
      · by_cases hc : p c = true
        · rw [if_pos hc] at hacc
          have hij : j = i := by
            have := Option.some.inj hacc
            omega
          subst hij
          refine Or.inr ⟨le_refl j, by simp, by simpa using hc, ?_⟩
          intro k hk1 hk2
          have hk0 : j - j = 0 := by omega
          rw [hk0] at hk1
          obtain ⟨m, rfl⟩ := Nat.exists_eq_add_of_lt hk1
          have : 0 + m + 1 = m + 1 := by omega
          rw [this, List.getD_cons_succ]
          exact hnone m (by simpa using hk2)
        · rw [if_neg hc] at hacc
          refine Or.inl ⟨hacc, ?_⟩
          intro k hk
          cases k with
          | zero => simpa using Bool.eq_false_iff.mpr hc
          | succ m =>
              rw [List.getD_cons_succ]
              exact hnone m (by simpa using hk)
      · refine Or.inr ⟨by omega, ?_, ?_, ?_⟩
        · simp only [List.length_cons]
          omega
        · have hji : j - i = (j - (i + 1)) + 1 := by omega
          rw [hji, List.getD_cons_succ]
          exact hp
        · intro k hk1 hk2
          have hk1p : 1 ≤ k := by omega
          obtain ⟨m, rfl⟩ := Nat.exists_eq_add_of_le hk1p
          have : 1 + m = m + 1 := by omega
          rw [this, List.getD_cons_succ]
          refine hafter m (by omega) ?_
          simp only [List.length_cons] at hk2
          omega

theorem scanGo_pair :
    ∀ (cs : List XChild) (i : Nat) (h e : Option Nat),
      scanGo i (h, e) cs =
        (lastMatchGo isHiddenChild i h cs, lastMatchGo isEdgesChild i e cs) := by
  intro cs
  induction cs with
  | nil => intro i h e; rfl
  | cons c cs ih =>
      intro i h e
      cases hh : isHiddenChild c with
      | true =>
          have hE : isEdgesChild c = false := by simp [isEdgesChild, hh]
          simp only [scanGo, lastMatchGo, hh, hE, if_true, Bool.false_eq_true, if_false]
          exact ih (i + 1) (some i) e
      | false =>
          cases he : edgesInfix c with
          | true =>
              have hE : isEdgesChild c = true := by simp [isEdgesChild, hh, he]
              simp only [scanGo, lastMatchGo, hh, hE, he, if_true, Bool.false_eq_true,
                if_false]
              exact ih (i + 1) h (some i)
          | false =>
              have hE : isEdgesChild c = false := by simp [isEdgesChild, hh, he]
              simp only [scanGo, lastMatchGo, hh, hE, he, Bool.false_eq_true, if_false]
              exact ih (i + 1) h e

theorem scanEdgeGroups_hidden_spec {cs : List XChild} {h : Nat}
    (hs : (scanEdgeGroups cs).1 = some h) :
    h < cs.length ∧ isHiddenChild (cs.getD h noChild) = true ∧
      ∀ k, h < k → k < cs.length → isHiddenChild (cs.getD k noChild) = false := by
  rw [scanEdgeGroups, scanGo_pair cs 0 none none] at hs
  rcases lastMatchGo_some isHiddenChild cs 0 none h hs with ⟨habs, _⟩ | ⟨_, hlt, hp, hafter⟩
  · exact absurd habs (by simp)
  · refine ⟨by simpa using hlt, by simpa using hp, ?_⟩
    intro k hk1 hk2
    exact hafter k (by simpa using hk1) hk2

theorem scanEdgeGroups_edges_spec {cs : List XChild} {e : Nat}
    (hs : (scanEdgeGroups cs).2 = some e) :
    e < cs.length ∧ isEdgesChild (cs.getD e noChild) = true ∧
      ∀ k, e < k → k < cs.length → isEdgesChild (cs.getD k noChild) = false := by
  rw [scanEdgeGroups, scanGo_pair cs 0 none none] at hs
  rcases lastMatchGo_some isEdgesChild cs 0 none e hs with ⟨habs, _⟩ | ⟨_, hlt, hp, hafter⟩
  · exact absurd habs (by simp)
  · refine ⟨by simpa using hlt, by simpa using hp, ?_⟩
    intro k hk1 hk2
    exact hafter k (by simpa using hk1) hk2

/-! #### List-index lemmas -/

theorem get?_eq_getD {α : Type} (d : α) :
    ∀ (l : List α) (n : Nat), n < l.length → l.get? n = some (l.getD n d) := by
  intro l
  induction l with
  | nil => intro n hn; simp at hn
  | cons c l ih =>
      intro n hn
      cases n with
      | zero => rfl
      | succ m => exact ih m (by simpa using hn)

theorem get?_eraseIdx_of_lt {α : Type} :
    ∀ (l : List α) (h k : Nat), k < h → (l.eraseIdx h).get? k = l.get? k := by
  intro l
  induction l with
  | nil => intro h k _; rfl
  | cons c l ih =>
      intro h k hk
      cases h with
      | zero => omega
      | succ m =>
          cases k with
          | zero => rfl
          | succ n => exact ih m n (by omega)

theorem length_eraseIdx_of_lt {α : Type} :
    ∀ (l : List α) (h : Nat), h < l.length → (l.eraseIdx h).length = l.length - 1 := by
  intro l
  induction l with
  | nil => intro h hh; simp at hh
  | cons c l ih =>
      intro h hh
      cases h with
      | zero => simp [List.eraseIdx]
      | succ m =>
          have := ih m (by simpa using hh)
          simp only [List.eraseIdx, List.length_cons, this]
          have hm : m < l.length := by simpa using hh
          omega

theorem get?_insertAt_self :
    ∀ (l : List XChild) (e : Nat) (x : XChild), e ≤ l.length →
      (insertAt e x l).get? e = some x := by
  intro l
  induction l with
  | nil =>
      intro e x he
      have : e = 0 := by simpa using he
      subst this
      rfl
  | cons c l ih =>
      intro e x he
      cases e with
      | zero => rfl
      | succ m => exact ih m x (by simpa using he)

theorem get?_insertAt_succ :
    ∀ (l : List XChild) (e : Nat) (x : XChild), e ≤ l.length →
      (insertAt e x l).get? (e + 1) = l.get? e := by
  intro l
  induction l with
  | nil =>
      intro e x he
      have : e = 0 := by simpa using he
      subst this
      rfl
  | cons c l ih =>
      intro e x he
      cases e with
      | zero => rfl
      | succ m => exact ih m x (by simpa using he)

/-- C10: the scan never selects a child containing "HiddenEdges" as the
visible-edge group (the selected visible child contains "Edges" but not
"HiddenEdges"), and for both groups the selected child is the last
matching one in document order. -/
theorem C10_group_selection (cs : List XChild) :
    (∀ e, (scanEdgeGroups cs).2 = some e →
      e < cs.length ∧ isHiddenChild (cs.getD e noChild) = false ∧
        edgesInfix (cs.getD e noChild) = true ∧
        ∀ k, e < k → k < cs.length → isEdgesChild (cs.getD k noChild) = false) ∧
    (∀ h, (scanEdgeGroups cs).1 = some h →
      h < cs.length ∧ isHiddenChild (cs.getD h noChild) = true ∧
        ∀ k, h < k → k < cs.length → isHiddenChild (cs.getD k noChild) = false) := by
  constructor
  · intro e hs
    obtain ⟨hlen, hsel, hlast⟩ := scanEdgeGroups_edges_spec hs
    have hpair := hsel
    simp only [isEdgesChild, Bool.and_eq_true, Bool.not_eq_true'] at hpair
    exact ⟨hlen, hpair.1, hpair.2, hlast⟩
  · intro h hs
    exact scanEdgeGroups_hidden_spec hs

/-- C10 witness: in a document with children ids `Edges`, `HiddenEdges`,
`Edges2`, `body`, the scan selects index 2 (the last visible-edge child,
not the hidden one at index 1) and index 1 for the hidden group. -/
theorem C10_group_selection_witness :
    (2 < ([⟨some ("Edges".toList), "g".toList, []⟩,
           ⟨some ("HiddenEdges".toList), "g".toList, []⟩,
           ⟨some ("Edges2".toList), "g".toList, []⟩,
           ⟨some ("body".toList), "g".toList, []⟩] : List XChild).length ∧
      isHiddenChild (([⟨some ("Edges".toList), "g".toList, []⟩,
           ⟨some ("HiddenEdges".toList), "g".toList, []⟩,
           ⟨some ("Edges2".toList), "g".toList, []⟩,
           ⟨some ("body".toList), "g".toList, []⟩] : List XChild).getD 2 noChild) = false ∧
      edgesInfix (([⟨some ("Edges".toList), "g".toList, []⟩,
           ⟨some ("HiddenEdges".toList), "g".toList, []⟩,
           ⟨some ("Edges2".toList), "g".toList, []⟩,
           ⟨some ("body".toList), "g".toList, []⟩] : List XChild).getD 2 noChild) = true ∧
      ∀ k, 2 < k → k < ([⟨some ("Edges".toList), "g".toList, []⟩,
           ⟨some ("HiddenEdges".toList), "g".toList, []⟩,
           ⟨some ("Edges2".toList), "g".toList, []⟩,
           ⟨some ("body".toList), "g".toList, []⟩] : List XChild).length →
        isEdgesChild (([⟨some ("Edges".toList), "g".toList, []⟩,
           ⟨some ("HiddenEdges".toList), "g".toList, []⟩,
           ⟨some ("Edges2".toList), "g".toList, []⟩,
           ⟨some ("body".toList), "g".toList, []⟩] : List XChild).getD k noChild) = false) :=
  (C10_group_selection
      [⟨some ("Edges".toList), "g".toList, []⟩,
       ⟨some ("HiddenEdges".toList), "g".toList, []⟩,
       ⟨some ("Edges2".toList), "g".toList, []⟩,
       ⟨some ("body".toList), "g".toList, []⟩]).1 2 (by decide)

/-- C2 (amended): with `fill_opacity < 1.0` and both groups present, if the
hidden-edge group occurs after the visible-edge group the stage produces a
document in which the hidden-edge group immediately precedes the
visible-edge group; if the hidden-edge group already precedes the
visible-edge group (immediately or not — in particular when it immediately
precedes it) the document is unchanged. -/
theorem C2_zorder_amended (fill_opacity : ℚ) (cs : List XChild) (h e : Nat)
    (hfo : fill_opacity < 1) (hscan : scanEdgeGroups cs = (some h, some e)) :
    (e < h → immediatelyPrecedes (cs.getD h noChild) (cs.getD e noChild)
        (zOrderStage fill_opacity cs)) ∧
    (h < e → zOrderStage fill_opacity cs = cs) := by
  have hzs : zOrderStage fill_opacity cs = (reorderChildren cs).1 := if_pos hfo
  have hh : h < cs.length :=
    (scanEdgeGroups_hidden_spec (by rw [hscan])).1
  have he : e < cs.length :=
    (scanEdgeGroups_edges_spec (by rw [hscan])).1
  constructor
  · intro heh
    have hre : reorderChildren cs =
        (insertAt e (cs.getD h noChild) (cs.eraseIdx h), RStat.moved) := by
      unfold reorderChildren
      rw [hscan]
      exact if_neg (by omega)
    rw [hzs, hre]
    have hlen : e ≤ (cs.eraseIdx h).length := by
      rw [length_eraseIdx_of_lt cs h hh]
      omega
    refine ⟨e, ?_, ?_⟩
    · exact get?_insertAt_self (cs.eraseIdx h) e (cs.getD h noChild) hlen
    · rw [get?_insertAt_succ (cs.eraseIdx h) e (cs.getD h noChild) hlen,
        get?_eraseIdx_of_lt cs h e heh]
      exact get?_eq_getD noChild cs e he
  · intro hhe
    rw [hzs]
    have hre : reorderChildren cs = (cs, RStat.alreadyOrdered) := by
      unfold reorderChildren
      rw [hscan]
      exact if_pos (by omega)
    rw [hre]

/-- C2 counterexample: document order hidden, other, visible with opacity
1/2.  The hidden group already precedes the visible one, so the stage
leaves the document unchanged — and the hidden group does not immediately
precede the visible group in the result, contrary to the claim. -/
theorem C2_counterexample :
    zOrderStage (1 / 2)
        [⟨some ("HiddenEdges".toList), "g".toList, []⟩,
         ⟨none, "g".toList, []⟩,
         ⟨some ("Edges".toList), "g".toList, []⟩] =
      [⟨some ("HiddenEdges".toList), "g".toList, []⟩,
       ⟨none, "g".toList, []⟩,
       ⟨some ("Edges".toList), "g".toList, []⟩] ∧
    ¬ immediatelyPrecedes ⟨some ("HiddenEdges".toList), "g".toList, []⟩
        ⟨some ("Edges".toList), "g".toList, []⟩
        (zOrderStage (1 / 2)
          [⟨some ("HiddenEdges".toList), "g".toList, []⟩,
           ⟨none, "g".toList, []⟩,
           ⟨some ("Edges".toList), "g".toList, []⟩]) := by
  have hz : zOrderStage (1 / 2)
      [⟨some ("HiddenEdges".toList), "g".toList, []⟩,
       ⟨none, "g".toList, []⟩,
       ⟨some ("Edges".toList), "g".toList, []⟩] =
      [⟨some ("HiddenEdges".toList), "g".toList, []⟩,
       ⟨none, "g".toList, []⟩,
       ⟨some ("Edges".toList), "g".toList, []⟩] := by
    unfold zOrderStage
    rw [if_pos (by norm_num : (1 / 2 : ℚ) < 1)]
    decide
  refine ⟨hz, ?_⟩
  rw [hz]
  rintro ⟨i, h1, h2⟩
  rcases i with _ | _ | _ | n
  · exact absurd h2 (by decide)
  · exact absurd h1 (by decide)
  · exact absurd h2 (by decide)
  · simp [List.get?] at h1

/-- C2 witness for the amended claim: order other, visible, hidden is
rewritten so that hidden immediately precedes visible; order hidden,
visible is already correct and left unchanged. -/
theorem C2_zorder_amended_witness :
    immediatelyPrecedes
        (([⟨none, "g".toList, []⟩,
           ⟨some ("Edges".toList), "g".toList, []⟩,
           ⟨some ("HiddenEdges".toList), "g".toList, []⟩] : List XChild).getD 2 noChild)
        (([⟨none, "g".toList, []⟩,
           ⟨some ("Edges".toList), "g".toList, []⟩,
           ⟨some ("HiddenEdges".toList), "g".toList, []⟩] : List XChild).getD 1 noChild)
        (zOrderStage (1 / 2)
          [⟨none, "g".toList, []⟩,
           ⟨some ("Edges".toList), "g".toList, []⟩,
           ⟨some ("HiddenEdges".toList), "g".toList, []⟩]) ∧
    zOrderStage (1 / 2)
        [⟨some ("HiddenEdges".toList), "g".toList, []⟩,
         ⟨some ("Edges".toList), "g".toList, []⟩] =
      [⟨some ("HiddenEdges".toList), "g".toList, []⟩,
       ⟨some ("Edges".toList), "g".toList, []⟩] :=
  ⟨(C2_zorder_amended (1 / 2)
      [⟨none, "g".toList, []⟩,
       ⟨some ("Edges".toList), "g".toList, []⟩,
       ⟨some ("HiddenEdges".toList), "g".toList, []⟩] 2 1
      (by norm_num) (by decide)).1 (by omega),
   (C2_zorder_amended (1 / 2)
      [⟨some ("HiddenEdges".toList), "g".toList, []⟩,
       ⟨some ("Edges".toList), "g".toList, []⟩] 0 1
      (by norm_num) (by decide)).2 (by omega)⟩

/-- C9: when the hidden-edge group or the visible-edge group is absent from
the top-level children, the reordering stage reports the missing-group
diagnostic (the skip message of line 316), leaves the document unchanged,
and the run does not fail: the following background-injection stage still
executes on the unchanged document. -/
theorem C9_missing_group_skip (fill_opacity : ℚ) (cs : List XChild)
    (hfo : fill_opacity < 1)
    (habs : (∀ c ∈ cs, isHiddenChild c = false) ∨ (∀ c ∈ cs, isEdgesChild c = false)) :
    reorderChildren cs = (cs, RStat.missing) ∧
      addBackground (zOrderStage fill_opacity cs) = bgRect :: cs := by
  have hre : reorderChildren cs = (cs, RStat.missing) := by
    rcases hp : scanEdgeGroups cs with ⟨a, b⟩
    have hone : a = none ∨ b = none := by
      rw [scanEdgeGroups, scanGo_pair cs 0 none none] at hp
      cases habs with
      | inl habs =>
          left
          have hH := lastMatchGo_acc isHiddenChild cs 0 none habs
          rw [hH] at hp
          exact congrArg Prod.fst hp.symm
      | inr habs =>
          right
          have hE : lastMatchGo isEdgesChild 0 none cs = none := by
            exact lastMatchGo_acc isEdgesChild cs 0 none habs
          rw [hE] at hp
          exact congrArg Prod.snd hp.symm
    unfold reorderChildren
    rw [hp]
    rcases hone with rfl | rfl
    · rfl
    · cases a <;> rfl
  refine ⟨hre, ?_⟩
  unfold zOrderStage
  rw [if_pos hfo, hre]
  rfl

/-- C9 witness: a document whose only top-level child is the visible-edge
group (the hidden-edge group is absent). -/
theorem C9_missing_group_skip_witness :
    reorderChildren [⟨some ("Edges".toList), "g".toList, []⟩] =
        ([⟨some ("Edges".toList), "g".toList, []⟩], RStat.missing) ∧
      addBackground (zOrderStage (1 / 2) [⟨some ("Edges".toList), "g".toList, []⟩]) =
        bgRect :: [⟨some ("Edges".toList), "g".toList, []⟩] :=
  C9_missing_group_skip (1 / 2) [⟨some ("Edges".toList), "g".toList, []⟩]
    (by norm_num) (Or.inl (by decide))

end RenderPart
